import Mathlib

/-!
Verification of the clinical value extraction core of `OCR_Flask.py`
(`extract_health_values` and the regex patterns it uses).

The Python source works with `re` regular expressions.  The patterns appearing
in the core are simple enough to be embedded as deterministic functions:

* each metric pattern is `\b(?:syn1|syn2|...)\b` with `re.IGNORECASE`, where a
  synonym is a sequence of literal characters and `\s*` gaps.  Since in every
  synonym a `\s*` is immediately followed by a non-whitespace literal, greedy
  maximal-munch whitespace skipping is exactly the backtracking semantics.
  Alternatives are tried in written order at each start position, and start
  positions left to right (leftmost-first match, Python semantics).
* `num_pat = \b([0-9]+[.,]?[0-9]*)\b` is embedded by enumerating, at each
  candidate start, the possible match ends in backtracking priority order
  (greedy `[0-9]*` giving back characters, then the optional separator given
  up) and taking the first end where the trailing `\b` holds.
* `bp_pat = ([0-9]{2,3}/[0-9]{2,3})` is embedded with the greedy `{2,3}`
  quantifier trying three digits before two.

Characters are modelled at the ASCII level (`\w` is `[A-Za-z0-9_]`,
case-insensitivity is ASCII `toLower`), matching the behaviour of the source
on the OCR text it is designed for.
-/

namespace OCR

/-- Python `\s` / `str.strip` whitespace, restricted to the Latin-1 range. -/
def isPySpace (c : Char) : Bool :=
  c == ' ' || c == '\t' || c == '\n' || c == '\r' || c == '\x0b' || c == '\x0c' ||
  c == '\x1c' || c == '\x1d' || c == '\x1e' || c == '\x1f' || c == '\x85' || c == '\xa0'

/-- Line boundary characters of Python `str.splitlines`. -/
def isLineBreak (c : Char) : Bool :=
  c == '\n' || c == '\r' || c == '\x0b' || c == '\x0c' ||
  c == '\x1c' || c == '\x1d' || c == '\x1e' || c == '\x85' ||
  c == '\u2028' || c == '\u2029'

/-- Worker for `splitlines`; `acc` holds the current line reversed. -/
def splitlinesAux : List Char → List Char → List (List Char)
  | [], acc => if acc.isEmpty then [] else [acc.reverse]
  | '\r' :: '\n' :: rest, acc => acc.reverse :: splitlinesAux rest []
  | c :: rest, acc =>
    if isLineBreak c then acc.reverse :: splitlinesAux rest []
    else splitlinesAux rest (c :: acc)

/-- Python `str.splitlines`: split at line boundaries (with `\r\n` as one
boundary), no trailing empty line for a trailing boundary. -/
def splitlines (s : List Char) : List (List Char) :=
  splitlinesAux s []

/-- Worker for `removeParens`.  The first argument is `none` while scanning
outside a parenthesized span; after meeting a `'('` it is `some buf` with
`buf` the characters seen since (reversed).  Meeting the first `')'` discards
the whole span (non-greedy match of `\(.*?\)`); if the input ends while a span
is open, that `'('` had no matching `')'`, so the span is emitted verbatim
(none of its characters can start a match either, since no `')'` follows). -/
def rpAux : Option (List Char) → List Char → List Char
  | none, [] => []
  | some buf, [] => '(' :: buf.reverse
  | none, c :: rest => if c == '(' then rpAux (some []) rest else c :: rpAux none rest
  | some buf, c :: rest =>
    if c == ')' then rpAux none rest else rpAux (some (c :: buf)) rest

/-- `re.sub(r'\(.*?\)', '', line)`: scanning left to right, each `'('` together
with everything up to the first following `')'` is removed; a `'('` with no
following `')'` stays. -/
def removeParens (l : List Char) : List Char := rpAux none l

/-- Worker for `collapseWs`; the flag records whether the previous character
was whitespace (so a `' '` for the current run is already emitted). -/
def collapseAux : Bool → List Char → List Char
  | _, [] => []
  | prevWs, c :: rest =>
    if isPySpace c then
      if prevWs then collapseAux true rest else ' ' :: collapseAux true rest
    else c :: collapseAux false rest

/-- `re.sub(r'\s+', ' ', s)`: every maximal whitespace run becomes one space. -/
def collapseWs (l : List Char) : List Char := collapseAux false l

/-- Python `str.strip()`. -/
def stripPy (l : List Char) : List Char :=
  ((l.dropWhile isPySpace).reverse.dropWhile isPySpace).reverse

/-- The `clean_line` computed for each line of the input:
parenthesized spans removed, whitespace collapsed, ends trimmed. -/
def cleanLine (l : List Char) : List Char :=
  stripPy (collapseWs (removeParens l))

/-- One element of a synonym regex: a literal character (matched
case-insensitively) or a `\s*` gap. -/
inductive Atom where
  | lit : Char → Atom
  | wsStar : Atom
deriving DecidableEq, Repr

/-- Index just after the maximal whitespace run starting at `p`. -/
def skipWs (s : List Char) (p : Nat) : Nat :=
  p + ((s.drop p).takeWhile isPySpace).length

/-- Match the atoms of one alternative starting at `p`; returns the end
position.  Deterministic: every `\s*` in the registry is followed by a
non-whitespace literal, so maximal munch is the regex behaviour. -/
def matchAtoms (s : List Char) : List Atom → Nat → Option Nat
  | [], p => some p
  | Atom.lit c :: as, p =>
    match s[p]? with
    | some d => if d.toLower == c.toLower then matchAtoms s as (p + 1) else none
    | none => none
  | Atom.wsStar :: as, p => matchAtoms s as (skipWs s p)

/-- Python `\w` at the ASCII level. -/
def isWordChar (c : Char) : Bool := c.isAlphanum || c == '_'

def wordAt (s : List Char) (i : Nat) : Bool :=
  match s[i]? with
  | some c => isWordChar c
  | none => false

/-- Python `\b` at position `i` of `s`. -/
def boundaryAt (s : List Char) (i : Nat) : Bool :=
  ((i != 0) && wordAt s (i - 1)) != wordAt s i

/-- One alternative of a `\b(?:...)\b` pattern, tried at position `p`:
the literal part must match and the trailing `\b` must hold. -/
def altMatchEnd (s : List Char) (alt : List Atom) (p : Nat) : Option Nat :=
  match matchAtoms s alt p with
  | some q => if boundaryAt s q then some q else none
  | none => none

/-- All alternatives tried in written order at start `p` (Python alternation
priority), after the leading `\b`. -/
def synMatchAt (s : List Char) (alts : List (List Atom)) (p : Nat) : Option Nat :=
  if boundaryAt s p then alts.findSome? (fun alt => altMatchEnd s alt p) else none

/-- `pattern.search(clean_line)` for a metric pattern: leftmost start position
wins; returns `m.end()`. -/
def synSearch (s : List Char) (alts : List (List Atom)) : Option Nat :=
  (List.range (s.length + 1)).findSome? (fun p => synMatchAt s alts p)

/-- Index just after the maximal digit run starting at `p`. -/
def skipDigits (s : List Char) (p : Nat) : Nat :=
  p + ((s.drop p).takeWhile (fun c => c.isDigit)).length

/-- The `[.,]` separator class of `num_pat`. -/
def isSepChar (c : Char) : Bool := c == '.' || c == ','

/-- `[hi, hi-1, ..., lo]` (empty if `hi < lo`). -/
def descRange (hi lo : Nat) : List Nat :=
  (List.range' lo (hi + 1 - lo)).reverse

/-- Candidate match ends of `[0-9]+[.,]?[0-9]*` at start `p`, in the regex
backtracking priority order: the greedy full match first, then `[0-9]*`
giving back one digit at a time, finally the separator given up (ending the
match at the end of the first digit run). -/
def numCandidates (s : List Char) (p : Nat) : List Nat :=
  match s[p]? with
  | some c =>
    if c.isDigit then
      let q1 := skipDigits s (p + 1)
      let withSep :=
        match s[q1]? with
        | some d => if isSepChar d then descRange (skipDigits s (q1 + 1)) (q1 + 1) else []
        | none => []
      withSep ++ [q1]
    else []
  | none => []

/-- `num_pat` tried at start position `p`: the leading `\b` must hold and the
first candidate end (in backtracking order) where the trailing `\b` holds is
taken.  Returns the span `(start, end)` of the match. -/
def tryNumAt (s : List Char) (p : Nat) : Option (Nat × Nat) :=
  if boundaryAt s p then
    ((numCandidates s p).find? (fun q => boundaryAt s q)).map (fun q => (p, q))
  else none

/-- `num_pat.search(clean_line, start)`: leftmost matching start position. -/
def numSearch (s : List Char) (start : Nat) : Option (Nat × Nat) :=
  (List.range' start (s.length + 1 - start)).findSome? (fun p => tryNumAt s p)

/-- Length of the maximal digit run starting at `p`. -/
def digitRunLen (s : List Char) (p : Nat) : Nat := skipDigits s p - p

/-- One left-group width `k ∈ {3,2}` of `bp_pat` tried at `p`: `k` digits, a
`'/'`, then greedily three digits, else two.  Returns the match span. -/
def tryBpSide (s : List Char) (p k : Nat) : Option (Nat × Nat) :=
  if k ≤ digitRunLen s p ∧ s[p + k]? = some '/' then
    if 3 ≤ digitRunLen s (p + k + 1) then some (p, p + k + 4)
    else if 2 ≤ digitRunLen s (p + k + 1) then some (p, p + k + 3)
    else none
  else none

/-- `bp_pat = ([0-9]{2,3}/[0-9]{2,3})` tried at `p`: the greedy `{2,3}` tries
three digits before two. -/
def tryBpAt (s : List Char) (p : Nat) : Option (Nat × Nat) :=
  (tryBpSide s p 3).orElse (fun _ => tryBpSide s p 2)

/-- `bp_pat.search(clean_line, start)`. -/
def bpSearch (s : List Char) (start : Nat) : Option (Nat × Nat) :=
  (List.range' start (s.length + 1 - start)).findSome? (fun p => tryBpAt s p)

/-- The characters of `s` from position `p` (inclusive) to `q` (exclusive). -/
def slice (s : List Char) (p q : Nat) : List Char :=
  (s.drop p).take (q - p)

/-- `value.replace(',', '.')`. -/
def commaToDot (l : List Char) : List Char :=
  l.map (fun c => if c == ',' then '.' else c)

/-- A synonym made of literal characters only. -/
def syn (t : String) : List Atom := t.toList.map Atom.lit

/-- A synonym `a\s*b`. -/
def wsyn (a b : String) : List Atom := syn a ++ [Atom.wsStar] ++ syn b

/-- The `patterns` dictionary of `extract_health_values`, in insertion order,
each metric with its regex alternatives in written order. -/
def patterns : List (String × List (List Atom)) := [
  ("Plasma Glucose",
    [wsyn "Plasma" "Glucose", wsyn "Plasma" "Glu", wsyn "Glu" "(Plasma)",
     wsyn "Glucose," "Plasma", syn "P-Glucose", wsyn "Plazma" "Glucose",
     wsyn "Plasma" "Glukose"]),
  ("HbA1c",
    [syn "HbA1c", syn "A1c", syn "HbAic", syn "HbAIc", syn "H6A1c", syn "HbAlc",
     syn "Glycosylated Hemoglobin", syn "HgbA1c", syn "Hemoglobin A1c",
     syn "HbA1C", syn "HBA1c", syn "Hemogloben A1c"]),
  ("HDL",
    [syn "HDL", syn "HDL-C", syn "High-density Lipoprotein", syn "HDLc"]),
  ("LDL",
    [syn "LDL", syn "LDL-C", syn "Low-density Lipoprotein", syn "LDLc"]),
  ("Triglycerides",
    [syn "Triglycerides", syn "Triglyceride", syn "Trigs", syn "Trig"]),
  ("Albumin",
    [syn "Serum Albumin", syn "Albumin", syn "Albm", syn "Albumn", syn "Albmin"]),
  ("Cholesterol",
    [syn "Total Cholesterol", syn "Cholesterol", syn "Cholestrol", syn "Chol",
     syn "Tot Chol"]),
  ("BMI",
    [syn "BMI", syn "Body Mass Index", syn "B.M.I."]),
  ("Blood Pressure",
    [syn "Blood Pressure", syn "BP", syn "B.P.", syn "BloodPressure"]),
  ("TSH",
    [syn "TSH", syn "Thyroid Stimulating Hormone", syn "T.S.H.", syn "Thyrotropin",
     syn "THS", syn "Tyroid Stimulating Hormone"]),
  ("LDH",
    [syn "LDH", syn "LD", syn "Lactate Dehydrogenase", syn "LD Value", syn "LHD",
     syn "Lactate Dehidrogenase"]),
  ("CK",
    [syn "CK", syn "Creatine Kinase", syn "CPK", syn "Creatine Phosphokinase",
     syn "Creatin Kinase", syn "CKK", syn "Cretine Kinase"])
]

/-- The metric names, in registry (dictionary insertion) order. -/
def registryNames : List String := patterns.map Prod.fst

/-- The value (if any) that one metric extracts from one cleaned line:
label search, then `bp_pat` for Blood Pressure or `num_pat` (with
`.replace(',', '.')`) for the others, starting at the label match end. -/
def lineValue (key : String) (alts : List (List Atom)) (clean : List Char) :
    Option (List Char) :=
  match synSearch clean alts with
  | none => none
  | some e =>
    if key == "Blood Pressure" then
      (bpSearch clean e).map (fun pq => slice clean pq.1 pq.2)
    else
      (numSearch clean e).map (fun pq => commaToDot (slice clean pq.1 pq.2))

/-- The inner `for key, pattern in patterns.items()` loop over one cleaned
line: each still-unresolved metric that yields a value is appended to the
result association list (Python dict insertion). -/
def innerFold (clean : List Char) :
    List (String × List (List Atom)) → List (String × List Char) →
    List (String × List Char)
  | [], res => res
  | kp :: ps, res =>
    innerFold clean ps
      (if res.any (fun e => e.1 == kp.1) then res
       else
         match lineValue kp.1 kp.2 clean with
         | some v => res ++ [(kp.1, v)]
         | none => res)

/-- Processing of one raw line: clean it, then run the inner loop. -/
def step (res : List (String × List Char)) (line : List Char) :
    List (String × List Char) :=
  innerFold (cleanLine line) patterns res

/-- The whole line loop, starting from the empty `results` dict. -/
def scanLines (lines : List (List Char)) : List (String × List Char) :=
  lines.foldl step []

/-- The final `results` dict as an association list in Python dict iteration
(insertion) order: resolved metrics first in resolution order, then the
missing metrics set to `None` in registry order. -/
def assemble (res : List (String × List Char)) : List (String × Option String) :=
  res.map (fun e => (e.1, some (String.mk e.2))) ++
    (patterns.filter (fun kp => !(res.any (fun e => e.1 == kp.1)))).map
      (fun kp => (kp.1, none))

/-- `extract_health_values(text)`: the result dict as an ordered association
list; `none` is Python `None`. -/
def extract_health_values (text : String) : List (String × Option String) :=
  assemble (scanLines (splitlines text.toList))

/-- First-match lookup in an association list (Python dict lookup; keys are
unique in all lists we build). -/
def lookupKey {α : Type} (k : String) (l : List (String × α)) : Option α :=
  (l.find? (fun e => e.1 == k)).map Prod.snd

/-- The value metric `k` extracts from a raw line, looked up through the
registry (`none` for a key outside the registry). -/
def lineValueFor (k : String) (line : List Char) : Option (List Char) :=
  match patterns.find? (fun kp => kp.1 == k) with
  | some kp => lineValue kp.1 kp.2 (cleanLine line)
  | none => none

/-! ### Specification-side definitions

The following definitions are written from the words of the specification and
the claims, to be compared with the code-side functions above. -/

/-- The leading digit run of a value string. -/
def leadDigits (l : List Char) : List Char := l.takeWhile (fun c => c.isDigit)

/-- What remains of a value string after its leading digit run. -/
def afterDigits (l : List Char) : List Char := l.drop (leadDigits l).length

/-- The decimal value shape claimed by the spec: digits, optionally followed
by a single `'.'` separator and (at least one) further digits. -/
def claimDecShape (l : List Char) : Bool :=
  !(leadDigits l).isEmpty &&
    ((afterDigits l).isEmpty ||
      ((afterDigits l).head? == some '.' && !((afterDigits l).drop 1).isEmpty &&
        ((afterDigits l).drop 1).all (fun c => c.isDigit)))

/-- A raw (pre-normalization) value token shape per the spec: digits,
optionally a `'.'` or `','` separator and further digits. -/
def claimRawTokenShape (l : List Char) : Bool :=
  !(leadDigits l).isEmpty &&
    ((afterDigits l).isEmpty ||
      (((afterDigits l).head? == some '.' || (afterDigits l).head? == some ',') &&
        !((afterDigits l).drop 1).isEmpty &&
        ((afterDigits l).drop 1).all (fun c => c.isDigit)))

/-- The ratio value shape claimed by the spec: 2-3 digits, `'/'`, 2-3 digits. -/
def ratioShape (l : List Char) : Bool :=
  ((leadDigits l).length == 2 || (leadDigits l).length == 3) &&
    match afterDigits l with
    | '/' :: d2 => !d2.isEmpty && d2.all (fun c => c.isDigit) &&
        (d2.length == 2 || d2.length == 3)
    | _ => false

/-- The decimal value shape the code actually guarantees (amended claim):
digits, optionally a single `'.'` separator, then zero or more digits — the
separator may be trailing. -/
def amendedDecShape (l : List Char) : Bool :=
  !(leadDigits l).isEmpty &&
    ((afterDigits l).isEmpty ||
      ((afterDigits l).head? == some '.' && ((afterDigits l).drop 1).all (fun c => c.isDigit)))

/-- Modelled from the claim of C3: the first word-boundary-delimited token at
or after `start` whose characters form digits optionally followed by a single
separator and digits, normalized by `',' ↦ '.'`. -/
def claimFirstToken (s : List Char) (start : Nat) : Option (List Char) :=
  (List.range' start (s.length + 1 - start)).findSome? (fun p =>
    if boundaryAt s p then
      (List.range' (p + 1) (s.length - p)).findSome? (fun q =>
        if boundaryAt s q && claimRawTokenShape (slice s p q) then
          some (commaToDot (slice s p q))
        else none)
    else none)

/-- The amended description of one attempt of `num_pat` at start `p`
(written from the amended claim of C3, as a direct case analysis rather than
a backtracking search): digits are taken maximally; if a separator follows,
the match is the full digits-separator-digits run when a word boundary follows
it, else it is truncated just after the separator when a word character
follows the separator, else the separator is dropped; without a separator the
digit run must end at a word boundary. -/
def numSpecAt (s : List Char) (p : Nat) : Option Nat :=
  if !boundaryAt s p then none
  else
    match s[p]? with
    | none => none
    | some c =>
      if !c.isDigit then none
      else
        match s[skipDigits s (p + 1)]? with
        | none => some (skipDigits s (p + 1))
        | some d =>
          if isSepChar d then
            if boundaryAt s (skipDigits s (skipDigits s (p + 1) + 1)) then
              some (skipDigits s (skipDigits s (p + 1) + 1))
            else if wordAt s (skipDigits s (p + 1) + 1) then
              some (skipDigits s (p + 1) + 1)
            else some (skipDigits s (p + 1))
          else if isWordChar d then none
          else some (skipDigits s (p + 1))

/-- The search built from `numSpecAt` (amended claim of C3). -/
def numSpecSearch (s : List Char) (start : Nat) : Option (Nat × Nat) :=
  (List.range' start (s.length + 1 - start)).findSome? (fun p =>
    (numSpecAt s p).map (fun q => (p, q)))

/-! ### Association list lemmas -/

theorem lookupKey_nil {α : Type} (k : String) : lookupKey k ([] : List (String × α)) = none :=
  rfl

theorem lookupKey_append {α : Type} (k : String) (l₁ l₂ : List (String × α)) :
    lookupKey k (l₁ ++ l₂) = (lookupKey k l₁).or (lookupKey k l₂) := by
  unfold lookupKey
  rw [List.find?_append]
  cases l₁.find? (fun e => e.1 == k) <;> simp

theorem lookupKey_singleton {α : Type} (k key : String) (v : α) :
    lookupKey k [(key, v)] = if key == k then some v else none := by
  unfold lookupKey
  cases h : (key == k)
  · simp [List.find?, h]
  · simp [List.find?, h]

theorem lookup_isSome_eq_any {α : Type} (k : String) (res : List (String × α)) :
    (lookupKey k res).isSome = res.any (fun e => e.1 == k) := by
  induction res with
  | nil => rfl
  | cons e res ih =>
    unfold lookupKey at ih ⊢
    rw [List.find?_cons, List.any_cons]
    cases he : (e.1 == k)
    · simp only [he, Bool.false_or]
      exact ih
    · simp [he]

theorem mem_keys_iff_any {α : Type} (k : String) (res : List (String × α)) :
    k ∈ res.map Prod.fst ↔ res.any (fun e => e.1 == k) = true := by
  induction res with
  | nil => simp
  | cons e res ih =>
    simp only [List.map_cons, List.mem_cons, List.any_cons, Bool.or_eq_true, beq_iff_eq]
    constructor
    · rintro (h | h)
      · exact Or.inl h.symm
      · exact Or.inr (ih.mp h)
    · rintro (h | h)
      · exact Or.inl h.symm
      · exact Or.inr (ih.mpr h)

/-! ### The inner metric loop -/

theorem innerFold_eq_append (clean : List Char)
    (ps : List (String × List (List Atom))) :
    ∀ res : List (String × List Char), ∃ t, innerFold clean ps res = res ++ t := by
  induction ps with
  | nil => intro res; exact ⟨[], by simp [innerFold]⟩
  | cons kp ps ih =>
    intro res
    simp only [innerFold]
    by_cases hmem : res.any (fun e => e.1 == kp.1) = true
    · simpa [hmem] using ih res
    · simp only [Bool.not_eq_true] at hmem
      rw [hmem]
      simp only [Bool.false_eq_true, if_false]
      cases hlv : lineValue kp.1 kp.2 clean with
      | none => exact ih res
      | some v =>
        obtain ⟨t, ht⟩ := ih (res ++ [(kp.1, v)])
        exact ⟨(kp.1, v) :: t, by rw [ht]; simp⟩

theorem find?_key_eq_none {α : Type} (k : String) (ps : List (String × α))
    (h : k ∉ ps.map Prod.fst) : ps.find? (fun kp => kp.1 == k) = none := by
  rw [List.find?_eq_none]
  intro kp hkp
  simp only [beq_iff_eq]
  intro hk
  exact h (by simpa [hk] using List.mem_map_of_mem Prod.fst hkp)

theorem innerFold_lookup (clean : List Char) (ps : List (String × List (List Atom)))
    (hnd : (ps.map Prod.fst).Nodup) (res : List (String × List Char)) (k : String) :
    lookupKey k (innerFold clean ps res) =
      (lookupKey k res).or
        ((ps.find? (fun kp => kp.1 == k)).bind (fun kp => lineValue kp.1 kp.2 clean)) := by
  induction ps generalizing res with
  | nil => simp [innerFold]
  | cons kp ps ih =>
    simp only [List.map_cons, List.nodup_cons] at hnd
    obtain ⟨hkp, hnd'⟩ := hnd
    simp only [innerFold]
    by_cases hkey : (kp.1 == k) = true
    · have hkeq : kp.1 = k := by simpa using hkey
      subst hkeq
      have hfind : ps.find? (fun e => e.1 == kp.1) = none :=
        find?_key_eq_none kp.1 ps hkp
      by_cases hmem : res.any (fun e => e.1 == kp.1) = true
      · obtain ⟨v, hv⟩ := Option.isSome_iff_exists.mp
          (by rw [lookup_isSome_eq_any]; exact hmem)
        rw [if_pos hmem, ih hnd' res, hfind, hv]
        simp [List.find?_cons]
      · have hnone : lookupKey kp.1 res = none := by
          rw [← Option.not_isSome_iff_eq_none, lookup_isSome_eq_any]
          simpa using hmem
        rw [if_neg hmem]
        cases hlv : lineValue kp.1 kp.2 clean with
        | none =>
          rw [ih hnd' res, hfind, hnone]
          simp [List.find?_cons, hlv]
        | some v =>
          rw [ih hnd' (res ++ [(kp.1, v)]), hfind, lookupKey_append, hnone,
            lookupKey_singleton]
          simp [List.find?_cons, hlv]
    · have hkne : (kp.1 == k) = false := by simpa using hkey
      have harm : ∀ v, lookupKey k (res ++ [(kp.1, v)]) = lookupKey k res := by
        intro v
        rw [lookupKey_append, lookupKey_singleton, hkne]
        simp
      by_cases hmem : res.any (fun e => e.1 == kp.1) = true
      · rw [if_pos hmem, ih hnd' res]
        simp [List.find?_cons, hkne]
      · rw [if_neg hmem]
        cases hlv : lineValue kp.1 kp.2 clean with
        | none =>
          rw [ih hnd' res]
          simp [List.find?_cons, hkne]
        | some v =>
          rw [ih hnd' (res ++ [(kp.1, v)]), harm v]
          simp [List.find?_cons, hkne]

theorem patterns_keys_nodup : (patterns.map Prod.fst).Nodup := by decide

theorem step_lookup (res : List (String × List Char)) (line : List Char) (k : String) :
    lookupKey k (step res line) = (lookupKey k res).or (lineValueFor k line) := by
  unfold step
  rw [innerFold_lookup (cleanLine line) patterns patterns_keys_nodup res k]
  unfold lineValueFor
  cases patterns.find? (fun kp => kp.1 == k) <;> simp

/-! ### The line loop -/

theorem scanLines_append (l₁ l₂ : List (List Char)) :
    scanLines (l₁ ++ l₂) = List.foldl step (scanLines l₁) l₂ := by
  unfold scanLines
  exact List.foldl_append ..

theorem foldl_step_persist (k : String) (v : List Char) :
    ∀ (lines : List (List Char)) (res : List (String × List Char)),
      lookupKey k res = some v → lookupKey k (List.foldl step res lines) = some v := by
  intro lines
  induction lines with
  | nil => intro res h; simpa using h
  | cons line lines ih =>
    intro res h
    rw [List.foldl_cons]
    exact ih (step res line) (by rw [step_lookup, h]; rfl)

theorem scan_persist (k : String) (v : List Char) (l₁ l₂ : List (List Char))
    (h : lookupKey k (scanLines l₁) = some v) :
    lookupKey k (scanLines (l₁ ++ l₂)) = some v := by
  rw [scanLines_append]
  exact foldl_step_persist k v l₂ (scanLines l₁) h

/-! ### Keys of the results dictionary -/

theorem innerFold_keys_sub (clean : List Char) (ps : List (String × List (List Atom))) :
    ∀ (res : List (String × List Char)) (x : String),
      x ∈ (innerFold clean ps res).map Prod.fst →
      x ∈ res.map Prod.fst ∨ x ∈ ps.map Prod.fst := by
  induction ps with
  | nil => intro res x h; exact Or.inl h
  | cons kp ps ih =>
    intro res x h
    simp only [innerFold] at h
    by_cases hmem : res.any (fun e => e.1 == kp.1) = true
    · rw [if_pos hmem] at h
      rcases ih res x h with h' | h'
      · exact Or.inl h'
      · exact Or.inr (by simp [h'])
    · rw [if_neg hmem] at h
      cases hlv : lineValue kp.1 kp.2 clean with
      | none =>
        rw [hlv] at h
        rcases ih res x h with h' | h'
        · exact Or.inl h'
        · exact Or.inr (by simp [h'])
      | some v =>
        rw [hlv] at h
        rcases ih (res ++ [(kp.1, v)]) x h with h' | h'
        · simp only [List.map_append, List.mem_append] at h'
          rcases h' with h' | h'
          · exact Or.inl h'
          · simp only [List.map_cons, List.map_nil, List.mem_singleton] at h'
            exact Or.inr (by simp [h'])
        · exact Or.inr (by simp [h'])

theorem innerFold_keys_nodup (clean : List Char) (ps : List (String × List (List Atom))) :
    ∀ res : List (String × List Char), (res.map Prod.fst).Nodup →
      ((innerFold clean ps res).map Prod.fst).Nodup := by
  induction ps with
  | nil => intro res h; exact h
  | cons kp ps ih =>
    intro res h
    simp only [innerFold]
    by_cases hmem : res.any (fun e => e.1 == kp.1) = true
    · rw [if_pos hmem]; exact ih res h
    · rw [if_neg hmem]
      cases hlv : lineValue kp.1 kp.2 clean with
      | none => exact ih res h
      | some v =>
        refine ih (res ++ [(kp.1, v)]) ?_
        rw [List.map_append]
        rw [List.nodup_append]
        refine ⟨h, by simp, ?_⟩
        intro x hx
        simp only [List.map_cons, List.map_nil, List.mem_singleton]
        intro hx1
        subst hx1
        exact hmem ((mem_keys_iff_any kp.1 res).mp hx)

theorem foldl_step_keys (lines : List (List Char)) :
    ∀ res : List (String × List Char),
      (res.map Prod.fst).Nodup → (∀ x ∈ res.map Prod.fst, x ∈ registryNames) →
      ((List.foldl step res lines).map Prod.fst).Nodup ∧
        ∀ x ∈ (List.foldl step res lines).map Prod.fst, x ∈ registryNames := by
  induction lines with
  | nil => intro res h1 h2; exact ⟨h1, h2⟩
  | cons line lines ih =>
    intro res h1 h2
    rw [List.foldl_cons]
    refine ih (step res line) (innerFold_keys_nodup _ patterns res h1) ?_
    intro x hx
    rcases innerFold_keys_sub (cleanLine line) patterns res x hx with h' | h'
    · exact h2 x h'
    · exact h'

theorem scan_keys_nodup (lines : List (List Char)) :
    ((scanLines lines).map Prod.fst).Nodup :=
  (foldl_step_keys lines [] (by simp) (by simp)).1

theorem scan_keys_sub (lines : List (List Char)) :
    ∀ x ∈ (scanLines lines).map Prod.fst, x ∈ registryNames :=
  (foldl_step_keys lines [] (by simp) (by simp)).2

/-! ### Entry origin: every stored value came from `lineValue` -/

theorem innerFold_entries (P : String → List Char → Prop) (clean : List Char)
    (ps : List (String × List (List Atom)))
    (hP : ∀ kp v, kp ∈ ps → lineValue kp.1 kp.2 clean = some v → P kp.1 v) :
    ∀ res : List (String × List Char), (∀ e ∈ res, P e.1 e.2) →
      ∀ e ∈ innerFold clean ps res, P e.1 e.2 := by
  induction ps with
  | nil => intro res h e he; exact h e he
  | cons kp ps ih =>
    intro res h e he
    have hP' : ∀ kp' v, kp' ∈ ps → lineValue kp'.1 kp'.2 clean = some v → P kp'.1 v :=
      fun kp' v hm hv => hP kp' v (by simp [hm]) hv
    simp only [innerFold] at he
    by_cases hmem : res.any (fun e => e.1 == kp.1) = true
    · rw [if_pos hmem] at he
      exact ih hP' res h e he
    · rw [if_neg hmem] at he
      cases hlv : lineValue kp.1 kp.2 clean with
      | none =>
        rw [hlv] at he
        exact ih hP' res h e he
      | some v =>
        rw [hlv] at he
        refine ih hP' (res ++ [(kp.1, v)]) ?_ e he
        intro e' he'
        rcases List.mem_append.mp he' with h' | h'
        · exact h e' h'
        · have : e' = (kp.1, v) := by simpa using h'
          subst this
          exact hP kp v (by simp) hlv

theorem scan_entries (P : String → List Char → Prop)
    (hP : ∀ kp v clean, kp ∈ patterns → lineValue kp.1 kp.2 clean = some v → P kp.1 v) :
    ∀ (lines : List (List Char)), ∀ e ∈ scanLines lines, P e.1 e.2 := by
  have main : ∀ (lines : List (List Char)) (res : List (String × List Char)),
      (∀ e ∈ res, P e.1 e.2) → ∀ e ∈ List.foldl step res lines, P e.1 e.2 := by
    intro lines
    induction lines with
    | nil => intro res h e he; exact h e he
    | cons line lines ih =>
      intro res h e he
      rw [List.foldl_cons] at he
      exact ih (step res line)
        (innerFold_entries P (cleanLine line) patterns
          (fun kp v hm hv => hP kp v (cleanLine line) hm hv) res h) e he
  intro lines e he
  exact main lines [] (by simp) e he

/-! ### The final assembly -/

theorem assemble_keys (res : List (String × List Char)) :
    (assemble res).map Prod.fst =
      res.map Prod.fst ++
        (patterns.filter (fun kp => !(res.any (fun e => e.1 == kp.1)))).map Prod.fst := by
  unfold assemble
  rw [List.map_append, List.map_map, List.map_map]
  rfl

theorem assemble_lookup (res : List (String × List Char)) (k : String)
    (hk : k ∈ registryNames) :
    lookupKey k (assemble res) =
      some ((lookupKey k res).map (fun v => String.mk v)) := by
  unfold assemble
  rw [lookupKey_append]
  have h₁ : lookupKey k (res.map fun e => (e.1, some (String.mk e.2))) =
      (lookupKey k res).map (fun v => some (String.mk v)) := by
    unfold lookupKey
    rw [List.find?_map]
    have hcomp : ((fun e : String × Option String => e.1 == k) ∘
        (fun e : String × List Char => (e.1, some (String.mk e.2)))) =
        (fun e : String × List Char => e.1 == k) := rfl
    rw [hcomp]
    cases res.find? (fun e => e.1 == k) <;> rfl
  rw [h₁]
  cases hres : lookupKey k res with
  | some v => simp
  | none =>
    rw [Option.map_none', Option.none_or]
    have hany : res.any (fun e => e.1 == k) = false := by
      have := lookup_isSome_eq_any k res
      rw [hres] at this
      exact this.symm
    obtain ⟨kp, hkp, hkpk⟩ : ∃ kp ∈ patterns, (kp.1 == k) = true := by
      rcases List.mem_map.mp hk with ⟨kp, hkp, hfst⟩
      exact ⟨kp, hkp, by simp [hfst]⟩
    have hfilter : kp ∈ patterns.filter (fun kp => !(res.any (fun e => e.1 == kp.1))) := by
      rw [List.mem_filter]
      refine ⟨hkp, ?_⟩
      have hkeq : kp.1 = k := by simpa using hkpk
      rw [hkeq, hany]
      rfl
    have hsome : ((patterns.filter (fun kp => !(res.any (fun e => e.1 == kp.1)))).find?
        (fun kp => kp.1 == k)).isSome := by
      rw [List.find?_isSome]
      exact ⟨kp, hfilter, hkpk⟩
    obtain ⟨kp', hkp'⟩ := Option.isSome_iff_exists.mp hsome
    unfold lookupKey
    rw [List.find?_map]
    have hcomp : ((fun e : String × Option String => e.1 == k) ∘
        (fun kp : String × List (List Atom) => ((kp.1, none) : String × Option String))) =
        (fun kp : String × List (List Atom) => kp.1 == k) := rfl
    rw [hcomp, hkp']
    rfl

theorem registryNames_nodup : registryNames.Nodup := patterns_keys_nodup

/-! ### Digit runs -/

theorem skipDigits_ge (s : List Char) (p : Nat) : p ≤ skipDigits s p :=
  Nat.le_add_right p _

theorem skipDigits_le (s : List Char) (p : Nat) (h : p ≤ s.length) :
    skipDigits s p ≤ s.length := by
  unfold skipDigits
  have h1 : ((s.drop p).takeWhile (fun c => c.isDigit)).length ≤ (s.drop p).length :=
    List.Sublist.length_le (List.takeWhile_sublist _)
  rw [List.length_drop] at h1
  omega

theorem skipDigits_eq_of_none (s : List Char) (p : Nat) (h : s[p]? = none) :
    skipDigits s p = p := by
  have hlen : s.length ≤ p := List.getElem?_eq_none_iff.mp h
  unfold skipDigits
  rw [List.drop_eq_nil_of_le hlen]
  rfl

theorem skipDigits_eq_of_digit (s : List Char) (p : Nat) (c : Char)
    (h : s[p]? = some c) (hd : c.isDigit = true) :
    skipDigits s p = skipDigits s (p + 1) := by
  obtain ⟨hlt, hc⟩ := List.getElem?_eq_some.mp h
  unfold skipDigits
  rw [List.drop_eq_getElem_cons hlt, List.takeWhile_cons, hc, if_pos hd, List.length_cons]
  omega

theorem skipDigits_eq_of_nondigit (s : List Char) (p : Nat) (c : Char)
    (h : s[p]? = some c) (hd : c.isDigit = false) :
    skipDigits s p = p := by
  obtain ⟨hlt, hc⟩ := List.getElem?_eq_some.mp h
  unfold skipDigits
  rw [List.drop_eq_getElem_cons hlt, List.takeWhile_cons, hc, if_neg (by simp [hd])]
  rfl

theorem skipDigits_digits_aux (s : List Char) :
    ∀ (n p i : Nat), s.length - p ≤ n → p ≤ i → i < skipDigits s p →
      ∃ c, s[i]? = some c ∧ c.isDigit := by
  intro n
  induction n with
  | zero =>
    intro p i hn hpi hi
    have hnone : s[p]? = none := List.getElem?_eq_none_iff.mpr (by omega)
    rw [skipDigits_eq_of_none s p hnone] at hi
    omega
  | succ n ih =>
    intro p i hn hpi hi
    cases h : s[p]? with
    | none =>
      rw [skipDigits_eq_of_none s p h] at hi
      omega
    | some c =>
      by_cases hd : c.isDigit
      · rcases Nat.eq_or_lt_of_le hpi with heq | hlt
        · exact ⟨c, heq ▸ h, hd⟩
        · have hplt : p < s.length := (List.getElem?_eq_some.mp h).1
          have hskip : skipDigits s p = skipDigits s (p + 1) :=
            skipDigits_eq_of_digit s p c h hd
          exact ih (p + 1) i (by omega) hlt (by rw [← hskip]; exact hi)
      · rw [skipDigits_eq_of_nondigit s p c h (by simpa using hd)] at hi
        omega

theorem skipDigits_digits (s : List Char) (p i : Nat) (hpi : p ≤ i)
    (hi : i < skipDigits s p) : ∃ c, s[i]? = some c ∧ c.isDigit :=
  skipDigits_digits_aux s (s.length - p) p i (Nat.le_refl _) hpi hi

theorem skipDigits_stop_aux (s : List Char) :
    ∀ (n p : Nat), s.length - p ≤ n →
      ∀ c, s[skipDigits s p]? = some c → c.isDigit = false := by
  intro n
  induction n with
  | zero =>
    intro p hn c hc
    have hnone : s[p]? = none := List.getElem?_eq_none_iff.mpr (by omega)
    rw [skipDigits_eq_of_none s p hnone, hnone] at hc
    exact absurd hc (by simp)
  | succ n ih =>
    intro p hn c hc
    cases h : s[p]? with
    | none =>
      rw [skipDigits_eq_of_none s p h, h] at hc
      exact absurd hc (by simp)
    | some d =>
      by_cases hd : d.isDigit
      · rw [skipDigits_eq_of_digit s p d h hd] at hc
        have hplt : p < s.length := (List.getElem?_eq_some.mp h).1
        exact ih (p + 1) (by omega) c hc
      · rw [skipDigits_eq_of_nondigit s p d h (by simpa using hd), h] at hc
        cases hc
        simpa using hd

theorem skipDigits_stop (s : List Char) (p : Nat) (c : Char)
    (hc : s[skipDigits s p]? = some c) : c.isDigit = false :=
  skipDigits_stop_aux s (s.length - p) p (Nat.le_refl _) c hc

/-! ### Slices of the scanned line -/

theorem slice_cons (s : List Char) (p q : Nat) (c : Char) (h : s[p]? = some c)
    (hpq : p < q) : slice s p q = c :: slice s (p + 1) q := by
  obtain ⟨hlt, hc⟩ := List.getElem?_eq_some.mp h
  unfold slice
  rw [List.drop_eq_getElem_cons hlt, hc]
  have hq : q - p = (q - (p + 1)) + 1 := by omega
  rw [hq, List.take_succ_cons]

theorem slice_split (s : List Char) (p q1 q : Nat) (h1 : p ≤ q1) (h2 : q1 ≤ q) :
    slice s p q = slice s p q1 ++ slice s q1 q := by
  unfold slice
  have hq : q - p = (q1 - p) + (q - q1) := by omega
  rw [hq, List.take_add, List.drop_drop]
  have heq : p + (q1 - p) = q1 := by omega
  rw [heq]

theorem slice_length (s : List Char) (p q : Nat) (hq : q ≤ s.length) (hpq : p ≤ q) :
    (slice s p q).length = q - p := by
  unfold slice
  rw [List.length_take, List.length_drop]
  omega

theorem slice_all_digits (s : List Char) (p q : Nat) (hq : q ≤ s.length)
    (h : ∀ i, p ≤ i → i < q → ∃ c, s[i]? = some c ∧ c.isDigit) :
    (slice s p q).all (fun c => c.isDigit) = true := by
  rw [List.all_eq_true]
  intro x hx
  obtain ⟨j, hj, hjx⟩ := List.mem_iff_getElem.mp hx
  by_cases hple : p ≤ q
  · have hlen : (slice s p q).length = q - p := slice_length s p q hq hple
    have hjq : j < q - p := by omega
    have hx? : (slice s p q)[j]? = s[p + j]? := by
      unfold slice
      rw [List.getElem?_take, if_pos hjq, List.getElem?_drop]
    obtain ⟨c, hc, hcd⟩ := h (p + j) (by omega) (by omega)
    have : (slice s p q)[j]? = some x := List.getElem?_eq_getElem hj ▸ congrArg some hjx
    rw [hx?, hc] at this
    cases this
    exact hcd
  · exfalso
    have : q - p = 0 := by omega
    unfold slice at hj
    rw [List.length_take, this] at hj
    omega

theorem takeWhile_all (pred : Char → Bool) (A : List Char) (hA : A.all pred = true) :
    A.takeWhile pred = A := by
  induction A with
  | nil => rfl
  | cons c t ih =>
    rw [List.all_cons, Bool.and_eq_true] at hA
    rw [List.takeWhile_cons, if_pos hA.1, ih hA.2]

theorem takeWhile_middle (pred : Char → Bool) (A : List Char) (c : Char) (B : List Char)
    (hA : A.all pred = true) (hc : pred c = false) :
    (A ++ c :: B).takeWhile pred = A := by
  induction A with
  | nil => simp [List.takeWhile_cons, hc]
  | cons a t ih =>
    rw [List.all_cons, Bool.and_eq_true] at hA
    rw [List.cons_append, List.takeWhile_cons, if_pos hA.1, ih hA.2]

theorem descRange_mem (hi lo q : Nat) : q ∈ descRange hi lo ↔ lo ≤ q ∧ q ≤ hi := by
  unfold descRange
  rw [List.mem_reverse, List.mem_range'_1]
  omega

theorem findSome?_range'_some {α : Type} (f : Nat → Option α) (start n : Nat) (a : α)
    (h : (List.range' start n).findSome? f = some a) :
    ∃ p, start ≤ p ∧ p < start + n ∧ f p = some a := by
  obtain ⟨p, hp, hfp⟩ := List.exists_of_findSome?_eq_some h
  rw [List.mem_range'_1] at hp
  exact ⟨p, hp.1, hp.2, hfp⟩

theorem numSearch_some (s : List Char) (start p q : Nat)
    (h : numSearch s start = some (p, q)) :
    start ≤ p ∧ boundaryAt s p = true ∧ boundaryAt s q = true ∧
      q ∈ numCandidates s p := by
  unfold numSearch at h
  obtain ⟨p', hp'1, _, hf⟩ := findSome?_range'_some _ start _ _ h
  unfold tryNumAt at hf
  by_cases hb : boundaryAt s p' = true
  · rw [if_pos hb] at hf
    cases hfind : (numCandidates s p').find? (fun q => boundaryAt s q) with
    | none => rw [hfind] at hf; exact absurd hf (by simp)
    | some q0 =>
      rw [hfind] at hf
      have hf' : (p', q0) = (p, q) := by simpa using hf
      have hpp : p' = p := congrArg Prod.fst hf'
      have hqq : q0 = q := congrArg Prod.snd hf'
      subst hpp; subst hqq
      exact ⟨hp'1, hb, List.find?_some hfind, List.mem_of_find?_eq_some hfind⟩
  · rw [if_neg hb] at hf
    exact absurd hf (by simp)

theorem numCandidates_mem (s : List Char) (p q : Nat) (hq : q ∈ numCandidates s p) :
    ∃ c, s[p]? = some c ∧ c.isDigit = true ∧
      (q = skipDigits s (p + 1) ∨
        ∃ d, s[skipDigits s (p + 1)]? = some d ∧ isSepChar d = true ∧
          skipDigits s (p + 1) + 1 ≤ q ∧ q ≤ skipDigits s (skipDigits s (p + 1) + 1)) := by
  unfold numCandidates at hq
  cases hc : s[p]? with
  | none => simp [hc] at hq
  | some c =>
    simp only [hc] at hq
    by_cases hd : c.isDigit = true
    · rw [if_pos hd] at hq
      refine ⟨c, rfl, hd, ?_⟩
      simp only [List.mem_append, List.mem_singleton] at hq
      rcases hq with hq | hq
      · cases hsep : s[skipDigits s (p + 1)]? with
        | none => simp [hsep] at hq
        | some d =>
          simp only [hsep] at hq
          by_cases hds : isSepChar d = true
          · rw [if_pos hds] at hq
            rw [descRange_mem] at hq
            exact Or.inr ⟨d, rfl, hds, hq.1, hq.2⟩
          · simp [hds] at hq
      · exact Or.inl hq
    · simp [hd] at hq

theorem commaToDot_digits (A : List Char) (hA : A.all (fun c => c.isDigit) = true) :
    commaToDot A = A := by
  induction A with
  | nil => rfl
  | cons c t ih =>
    rw [List.all_cons, Bool.and_eq_true] at hA
    have hne : (c == ',') = false := by
      cases hcc : (c == ',')
      · rfl
      · have hc : c = ',' := by simpa using hcc
        subst hc
        exact absurd hA.1 (by decide)
    unfold commaToDot at ih ⊢
    rw [List.map_cons, hne, ih hA.2]
    rfl

theorem leadDigits_all (A : List Char) (hA : A.all (fun c => c.isDigit) = true) :
    leadDigits A = A := takeWhile_all _ A hA

theorem afterDigits_all (A : List Char) (hA : A.all (fun c => c.isDigit) = true) :
    afterDigits A = [] := by
  unfold afterDigits
  rw [leadDigits_all A hA, List.drop_length]

theorem leadDigits_sep (A : List Char) (c : Char) (B : List Char)
    (hA : A.all (fun c => c.isDigit) = true) (hc : c.isDigit = false) :
    leadDigits (A ++ c :: B) = A := takeWhile_middle _ A c B hA hc

theorem afterDigits_sep (A : List Char) (c : Char) (B : List Char)
    (hA : A.all (fun c => c.isDigit) = true) (hc : c.isDigit = false) :
    afterDigits (A ++ c :: B) = c :: B := by
  unfold afterDigits
  rw [leadDigits_sep A c B hA hc, List.drop_left]

theorem amended_of_all_digits (A : List Char) (hne : A ≠ [])
    (hA : A.all (fun c => c.isDigit) = true) : amendedDecShape A = true := by
  unfold amendedDecShape
  rw [leadDigits_all A hA, afterDigits_all A hA]
  simp [hne]

theorem amended_of_sep (A B : List Char) (hne : A ≠ [])
    (hA : A.all (fun c => c.isDigit) = true) (hB : B.all (fun c => c.isDigit) = true) :
    amendedDecShape (A ++ '.' :: B) = true := by
  unfold amendedDecShape
  rw [leadDigits_sep A '.' B hA (by decide), afterDigits_sep A '.' B hA (by decide)]
  simp [hne, hB]

theorem ratio_of_parts (A B : List Char)
    (hA : A.all (fun c => c.isDigit) = true) (hB : B.all (fun c => c.isDigit) = true)
    (hAl : A.length = 2 ∨ A.length = 3) (hBl : B.length = 2 ∨ B.length = 3) :
    ratioShape (A ++ '/' :: B) = true := by
  unfold ratioShape
  rw [leadDigits_sep A '/' B hA (by decide), afterDigits_sep A '/' B hA (by decide)]
  have hBne : B.isEmpty = false := by
    cases B
    · rcases hBl with h | h <;> simp at h
    · rfl
  rcases hAl with h | h <;> rcases hBl with h2 | h2 <;> simp [h, h2, hBne, hB]

/-- Everything `num_pat` + `.replace(',', '.')` guarantees about an extracted
decimal value: the match is a nonempty in-bounds span after the search start,
and the normalized value is digits, an optional `'.'`, and optional digits. -/
theorem numValue_props (s : List Char) (start p q : Nat)
    (h : numSearch s start = some (p, q)) :
    start ≤ p ∧ p < q ∧ q ≤ s.length ∧
      amendedDecShape (commaToDot (slice s p q)) = true ∧
      commaToDot (slice s p q) ≠ [] := by
  obtain ⟨hstart, hbp, hbq, hmem⟩ := numSearch_some s start p q h
  obtain ⟨c, hc, hcd, hcase⟩ := numCandidates_mem s p q hmem
  have hplt : p < s.length := (List.getElem?_eq_some.mp hc).1
  have hq1ge : p + 1 ≤ skipDigits s (p + 1) := skipDigits_ge s (p + 1)
  have hq1le : skipDigits s (p + 1) ≤ s.length := skipDigits_le s (p + 1) (by omega)
  have hdig1 : ∀ i, p ≤ i → i < skipDigits s (p + 1) →
      ∃ c', s[i]? = some c' ∧ c'.isDigit = true := by
    intro i hpi hi
    rcases Nat.eq_or_lt_of_le hpi with heq | hlt
    · exact ⟨c, heq ▸ hc, hcd⟩
    · exact skipDigits_digits s (p + 1) i hlt hi
  rcases hcase with hq | ⟨d, hd, hds, hq1, hq2⟩
  · -- the match is the bare digit run
    subst hq
    have hAall := slice_all_digits s p (skipDigits s (p + 1)) hq1le hdig1
    have hAlen := slice_length s p (skipDigits s (p + 1)) hq1le (by omega)
    have hAne : slice s p (skipDigits s (p + 1)) ≠ [] :=
      List.ne_nil_of_length_pos (by omega)
    rw [commaToDot_digits _ hAall]
    exact ⟨hstart, by omega, hq1le, amended_of_all_digits _ hAne hAall, hAne⟩
  · -- the match includes the separator at the end of the digit run
    set q1 := skipDigits s (p + 1) with hq1def
    have hq1lt : q1 < s.length := (List.getElem?_eq_some.mp hd).1
    have hq2le : skipDigits s (q1 + 1) ≤ s.length := skipDigits_le s (q1 + 1) (by omega)
    have hqle : q ≤ s.length := by omega
    have hsplit : slice s p q = slice s p q1 ++ slice s q1 q :=
      slice_split s p q1 q (by omega) (by omega)
    have hcons : slice s q1 q = d :: slice s (q1 + 1) q :=
      slice_cons s q1 q d hd (by omega)
    have hAall := slice_all_digits s p q1 (by omega) hdig1
    have hAlen := slice_length s p q1 (by omega) (by omega)
    have hAne : slice s p q1 ≠ [] := List.ne_nil_of_length_pos (by omega)
    have hBall := slice_all_digits s (q1 + 1) q hqle
      (fun i hi1 hi2 => skipDigits_digits s (q1 + 1) i hi1 (by omega))
    have hd' : d = '.' ∨ d = ',' := by
      unfold isSepChar at hds
      simpa using hds
    have hsep' : (if (d == ',') = true then '.' else d) = '.' := by
      rcases hd' with h' | h' <;> subst h' <;> rfl
    have hmap : commaToDot (slice s p q) =
        slice s p q1 ++ '.' :: commaToDot (slice s (q1 + 1) q) := by
      calc commaToDot (slice s p q)
          = commaToDot (slice s p q1 ++ d :: slice s (q1 + 1) q) := by rw [hsplit, hcons]
        _ = commaToDot (slice s p q1) ++
              (if (d == ',') = true then '.' else d) :: commaToDot (slice s (q1 + 1) q) := by
            unfold commaToDot
            rw [List.map_append, List.map_cons]
        _ = slice s p q1 ++ '.' :: commaToDot (slice s (q1 + 1) q) := by
            rw [hsep', commaToDot_digits (slice s p q1) hAall]
    rw [hmap]
    refine ⟨hstart, by omega, hqle, ?_, by simp [hAne]⟩
    have hBall' : (commaToDot (slice s (q1 + 1) q)).all (fun c => c.isDigit) = true := by
      rw [commaToDot_digits _ hBall]
      exact hBall
    exact amended_of_sep _ _ hAne hAall hBall'

theorem digitRunLen_digits (s : List Char) (p i k : Nat) (hk : k ≤ digitRunLen s p)
    (h1 : p ≤ i) (h2 : i < p + k) : ∃ c, s[i]? = some c ∧ c.isDigit = true := by
  unfold digitRunLen at hk
  exact skipDigits_digits s p i h1 (by omega)

/-- Everything `bp_pat` guarantees about an extracted Blood Pressure value:
the match is a nonempty in-bounds span after the search start, shaped
`[0-9]{2,3}/[0-9]{2,3}`. -/
theorem bpSide_props (s : List Char) (p k q : Nat) (hk : k = 3 ∨ k = 2)
    (h : tryBpSide s p k = some (p, q)) :
    p < q ∧ q ≤ s.length ∧ ratioShape (slice s p q) = true ∧ slice s p q ≠ [] := by
  unfold tryBpSide at h
  by_cases hcond : k ≤ digitRunLen s p ∧ s[p + k]? = some '/'
  · rw [if_pos hcond] at h
    obtain ⟨hrun, hslash⟩ := hcond
    have hklt : p + k < s.length := (List.getElem?_eq_some.mp hslash).1
    have hm3 : ∀ m', q = p + k + 1 + m' → (m' = 2 ∨ m' = 3) →
        m' ≤ digitRunLen s (p + k + 1) →
        p < q ∧ q ≤ s.length ∧ ratioShape (slice s p q) = true ∧ slice s p q ≠ [] := by
      intro m' hqdef hm2 hmle
      have hrun1 : skipDigits s (p + k + 1) ≤ s.length :=
        skipDigits_le s (p + k + 1) (by omega)
      have hqle : q ≤ s.length := by
        unfold digitRunLen at hmle
        omega
      have hsplit : slice s p q = slice s p (p + k) ++ slice s (p + k) q :=
        slice_split s p (p + k) q (by omega) (by omega)
      have hcons : slice s (p + k) q = '/' :: slice s (p + k + 1) q :=
        slice_cons s (p + k) q '/' hslash (by omega)
      have hAall := slice_all_digits s p (p + k) (by omega)
        (fun i hi1 hi2 => digitRunLen_digits s p i k hrun hi1 hi2)
      have hAlen := slice_length s p (p + k) (by omega) (by omega)
      have hBall := slice_all_digits s (p + k + 1) q hqle
        (fun i hi1 hi2 => digitRunLen_digits s (p + k + 1) i m' hmle hi1 (by omega))
      have hBlen := slice_length s (p + k + 1) q hqle (by omega)
      have hshape : ratioShape (slice s p q) = true := by
        rw [hsplit, hcons]
        refine ratio_of_parts _ _ hAall hBall ?_ ?_
        · rw [hAlen]
          omega
        · rw [hBlen]
          omega
      refine ⟨by omega, hqle, hshape, ?_⟩
      rw [hsplit, hcons]
      simp
    by_cases h3 : 3 ≤ digitRunLen s (p + k + 1)
    · rw [if_pos h3] at h
      have hq : p + k + 4 = q := congrArg Prod.snd (Option.some.inj h)
      exact hm3 3 (by omega) (by omega) h3
    · rw [if_neg h3] at h
      by_cases h2 : 2 ≤ digitRunLen s (p + k + 1)
      · rw [if_pos h2] at h
        have hq : p + k + 3 = q := congrArg Prod.snd (Option.some.inj h)
        exact hm3 2 (by omega) (by omega) h2
      · rw [if_neg h2] at h
        exact absurd h (by simp)
  · rw [if_neg hcond] at h
    exact absurd h (by simp)

theorem bpSearch_props (s : List Char) (start p q : Nat)
    (h : bpSearch s start = some (p, q)) :
    start ≤ p ∧ p < q ∧ q ≤ s.length ∧ ratioShape (slice s p q) = true ∧
      slice s p q ≠ [] := by
  unfold bpSearch at h
  obtain ⟨p', hp'1, _, hf⟩ := findSome?_range'_some _ start _ _ h
  unfold tryBpAt at hf
  have hside : ∀ k, (k = 3 ∨ k = 2) → tryBpSide s p' k = some (p, q) →
      start ≤ p ∧ p < q ∧ q ≤ s.length ∧ ratioShape (slice s p q) = true ∧
        slice s p q ≠ [] := by
    intro k hk hsk
    have hp'eq : p' = p := by
      unfold tryBpSide at hsk
      by_cases hcond : k ≤ digitRunLen s p' ∧ s[p' + k]? = some '/'
      · rw [if_pos hcond] at hsk
        by_cases h3 : 3 ≤ digitRunLen s (p' + k + 1)
        · rw [if_pos h3] at hsk
          exact congrArg Prod.fst (Option.some.inj hsk)
        · rw [if_neg h3] at hsk
          by_cases h2 : 2 ≤ digitRunLen s (p' + k + 1)
          · rw [if_pos h2] at hsk
            exact congrArg Prod.fst (Option.some.inj hsk)
          · rw [if_neg h2] at hsk
            exact absurd hsk (by simp)
      · rw [if_neg hcond] at hsk
        exact absurd hsk (by simp)
    rw [hp'eq] at hsk hp'1
    obtain ⟨h1, h2, h3, h4⟩ := bpSide_props s p k q hk hsk
    exact ⟨hp'1, h1, h2, h3, h4⟩
  cases hs3 : tryBpSide s p' 3 with
  | some x =>
    rw [hs3] at hf
    have : x = (p, q) := by simpa using hf
    subst this
    exact hside 3 (Or.inl rfl) hs3
  | none =>
    rw [hs3] at hf
    simp only [Option.orElse] at hf
    exact hside 2 (Or.inr rfl) (by simpa using hf)

/-- Everything one metric guarantees about a value it extracts from a line:
nonempty, and shaped as a ratio for Blood Pressure, else as an amended
decimal. -/
theorem lineValue_props (key : String) (alts : List (List Atom)) (clean : List Char)
    (v : List Char) (h : lineValue key alts clean = some v) :
    v ≠ [] ∧ (if key == "Blood Pressure" then ratioShape v = true
      else amendedDecShape v = true) := by
  unfold lineValue at h
  cases hsyn : synSearch clean alts with
  | none => simp [hsyn] at h
  | some e =>
    simp only [hsyn] at h
    by_cases hbp : (key == "Blood Pressure") = true
    · rw [if_pos hbp] at h
      obtain ⟨pq, hpq, hv⟩ := Option.map_eq_some'.mp h
      obtain ⟨_, _, _, hshape, hne⟩ := bpSearch_props clean e pq.1 pq.2 (by
        rw [← hpq])
      rw [if_pos hbp]
      exact ⟨hv ▸ hne, hv ▸ hshape⟩
    · rw [if_neg hbp] at h
      obtain ⟨pq, hpq, hv⟩ := Option.map_eq_some'.mp h
      obtain ⟨_, _, _, hshape, hne⟩ := numValue_props clean e pq.1 pq.2 (by
        rw [← hpq])
      rw [if_neg hbp]
      exact ⟨hv ▸ hne, hv ▸ hshape⟩

theorem assemble_keys_perm (res : List (String × List Char))
    (hsub : ∀ x ∈ res.map Prod.fst, x ∈ registryNames)
    (hnd : (res.map Prod.fst).Nodup) :
    ((assemble res).map Prod.fst).Perm registryNames := by
  have hfkeys : (patterns.filter (fun kp => !(res.any (fun e => e.1 == kp.1)))).map Prod.fst
      = (patterns.map Prod.fst).filter (fun x => !(res.any (fun e => e.1 == x))) := by
    induction patterns with
    | nil => rfl
    | cons kp ps ih =>
      simp only [List.filter_cons, List.map_cons]
      cases h : !(res.any (fun e => e.1 == kp.1)) <;> simp [h, ih]
  have hasm_nodup : ((assemble res).map Prod.fst).Nodup := by
    rw [assemble_keys, List.nodup_append]
    refine ⟨hnd, ((List.filter_sublist patterns).map Prod.fst).nodup patterns_keys_nodup, ?_⟩
    intro x hx
    rw [hfkeys]
    intro hx'
    rw [List.mem_filter] at hx'
    have := hx'.2
    rw [(mem_keys_iff_any x res).mp hx] at this
    exact absurd this (by simp)
  rw [List.perm_ext_iff_of_nodup hasm_nodup registryNames_nodup]
  intro x
  constructor
  · intro hx
    rw [assemble_keys, List.mem_append] at hx
    rcases hx with hx | hx
    · exact hsub x hx
    · rw [hfkeys, List.mem_filter] at hx
      exact hx.1
  · intro hx
    rw [assemble_keys, List.mem_append]
    by_cases hmem : x ∈ res.map Prod.fst
    · exact Or.inl hmem
    · refine Or.inr ?_
      rw [hfkeys, List.mem_filter]
      refine ⟨hx, ?_⟩
      have : res.any (fun e => e.1 == x) = false := by
        cases h : res.any (fun e => e.1 == x)
        · rfl
        · exact absurd ((mem_keys_iff_any x res).mpr h) hmem
      rw [this]
      rfl


/-! ### Word boundaries around digit runs -/

theorem wordAt_of_digit (s : List Char) (j : Nat) (c : Char) (hc : s[j]? = some c)
    (hd : c.isDigit = true) : wordAt s j = true := by
  have h1 : wordAt s j = isWordChar c := by
    unfold wordAt
    rw [hc]
  rw [h1]
  unfold isWordChar Char.isAlphanum
  rw [hd]
  simp

theorem sep_not_word (d : Char) (hd : isSepChar d = true) : isWordChar d = false := by
  have hd' : d = '.' ∨ d = ',' := by
    unfold isSepChar at hd
    simpa using hd
  rcases hd' with h | h <;> subst h <;> decide

theorem boundaryAt_eq_not_word (s : List Char) (i : Nat) (hi : i ≠ 0)
    (hw : wordAt s (i - 1) = true) : boundaryAt s i = !(wordAt s i) := by
  unfold boundaryAt
  have : (i != 0) = true := by simpa using hi
  rw [this, hw]
  cases wordAt s i <;> rfl

theorem boundaryAt_eq_word (s : List Char) (i : Nat) (hw : wordAt s (i - 1) = false) :
    boundaryAt s i = wordAt s i := by
  unfold boundaryAt
  rw [hw]
  cases (i != 0) <;> cases wordAt s i <;> rfl

/-- Just after a nonempty digit run there is a word character on the left. -/
theorem wordAt_before_run (s : List Char) (p : Nat) (c : Char) (hc : s[p]? = some c)
    (hd : c.isDigit = true) : wordAt s (skipDigits s (p + 1) - 1) = true := by
  have hge : p + 1 ≤ skipDigits s (p + 1) := skipDigits_ge s (p + 1)
  by_cases h : skipDigits s (p + 1) - 1 = p
  · rw [h]
    exact wordAt_of_digit s p c hc hd
  · obtain ⟨c', hc', hcd'⟩ := skipDigits_digits s (p + 1) (skipDigits s (p + 1) - 1)
      (by omega) (by omega)
    exact wordAt_of_digit s _ c' hc' hcd'

/-! ### `descRange` and its `find?` -/

theorem descRange_singleton (lo : Nat) : descRange lo lo = [lo] := by
  unfold descRange
  have h : lo + 1 - lo = 1 := by omega
  rw [h, List.range'_one]
  rfl

theorem descRange_cons (hi lo : Nat) (h : lo < hi) :
    descRange hi lo = hi :: descRange (hi - 1) lo := by
  unfold descRange
  have h1 : hi + 1 - lo = (hi - lo) + 1 := by omega
  have h2 : (hi - 1) + 1 - lo = hi - lo := by omega
  rw [h1, h2, List.range'_concat, List.reverse_append]
  have h3 : lo + 1 * (hi - lo) = hi := by omega
  rw [h3]
  rfl

theorem find?_descRange (pred : Nat → Bool) :
    ∀ (n hi lo : Nat), hi - lo ≤ n → lo ≤ hi →
      (∀ j, lo < j → j < hi → pred j = false) →
      (descRange hi lo).find? pred =
        if pred hi then some hi
        else if lo < hi ∧ pred lo = true then some lo
        else none := by
  intro n
  induction n with
  | zero =>
    intro hi lo h1 h2 hmid
    rw [(by omega : hi = lo), descRange_singleton]
    cases hp : pred lo
    · simp [hp, List.find?]
    · simp [hp, List.find?]
  | succ n ih =>
    intro hi lo h1 h2 hmid
    rcases Nat.eq_or_lt_of_le h2 with heq | hlt
    · rw [(by omega : hi = lo), descRange_singleton]
      cases hp : pred lo
      · simp [hp, List.find?]
      · simp [hp, List.find?]
    · rw [descRange_cons hi lo hlt]
      cases hp : pred hi
      · have ihres := ih (hi - 1) lo (by omega) (by omega)
          (fun j hj1 hj2 => hmid j hj1 (by omega))
        have hfc : (hi :: descRange (hi - 1) lo).find? pred = (descRange (hi - 1) lo).find? pred := by
          rw [List.find?_cons, hp]
        rw [hfc, ihres]
        by_cases hh : lo < hi - 1
        · have hpm : pred (hi - 1) = false := hmid (hi - 1) hh (by omega)
          rw [hpm]
          simp only [Bool.false_eq_true, if_false, hp]
          by_cases hplo : pred lo = true
          · rw [if_pos ⟨hh, hplo⟩, if_pos ⟨hlt, hplo⟩]
          · rw [if_neg (by tauto), if_neg (by tauto)]
        · have hh2 : hi - 1 = lo := by omega
          rw [hh2]
          simp only [hp, Bool.false_eq_true, if_false]
          by_cases hplo : pred lo = true
          · rw [if_pos hplo, if_pos ⟨hlt, hplo⟩]
          · simp [hplo]
      · rw [List.find?_cons, hp]
        rfl

/-! ### Equivalence of `num_pat` with its amended-claim description -/

theorem tryNum_eq_spec (s : List Char) (p : Nat) :
    tryNumAt s p = (numSpecAt s p).map (fun q => (p, q)) := by
  unfold tryNumAt numSpecAt numCandidates
  cases hb : boundaryAt s p
  · simp
  · simp only [Bool.not_true, Bool.false_eq_true, if_false, if_true]
    cases hc : s[p]? with
    | none => simp
    | some c =>
      simp only
      cases hcd : c.isDigit
      · simp
      · simp only [Bool.not_true, Bool.false_eq_true, if_false, if_true, List.nil_append]
        have hq1ge : p + 1 ≤ skipDigits s (p + 1) := skipDigits_ge s (p + 1)
        have hword1 : wordAt s (skipDigits s (p + 1) - 1) = true :=
          wordAt_before_run s p c hc hcd
        cases hd : s[skipDigits s (p + 1)]? with
        | none =>
          simp only
          have hw : wordAt s (skipDigits s (p + 1)) = false := by
            unfold wordAt
            rw [hd]
          have hbq1 : boundaryAt s (skipDigits s (p + 1)) = true := by
            rw [boundaryAt_eq_not_word s _ (by omega) hword1, hw]
            rfl
          simp [List.find?, hbq1]
        | some d =>
          simp only
          cases hds : isSepChar d
          · -- no separator after the digit run
            have hw : wordAt s (skipDigits s (p + 1)) = isWordChar d := by
              unfold wordAt
              rw [hd]
            have hbq1 : boundaryAt s (skipDigits s (p + 1)) = !(isWordChar d) := by
              rw [boundaryAt_eq_not_word s _ (by omega) hword1, hw]
            simp only [Bool.false_eq_true, if_false, List.nil_append]
            cases hwd : isWordChar d
            · rw [if_neg (by simp [hwd])]
              rw [hwd] at hbq1
              simp [List.find?, hbq1]
            · rw [if_pos rfl]
              rw [hwd] at hbq1
              simp [List.find?, hbq1]
          · -- separator after the digit run
            simp only [if_true]
            have hsepword : isWordChar d = false := sep_not_word d hds
            have hwq1 : wordAt s (skipDigits s (p + 1)) = false := by
              have h1 : wordAt s (skipDigits s (p + 1)) = isWordChar d := by
                unfold wordAt
                rw [hd]
              rw [h1, hsepword]
            have hbq1 : boundaryAt s (skipDigits s (p + 1)) = true := by
              rw [boundaryAt_eq_not_word s _ (by omega) hword1, hwq1]
              rfl
            have hq2ge : skipDigits s (p + 1) + 1 ≤ skipDigits s (skipDigits s (p + 1) + 1) :=
              skipDigits_ge s _
            have hbq11 : boundaryAt s (skipDigits s (p + 1) + 1) =
                wordAt s (skipDigits s (p + 1) + 1) := by
              refine boundaryAt_eq_word s _ ?_
              have : skipDigits s (p + 1) + 1 - 1 = skipDigits s (p + 1) := by omega
              rw [this, hwq1]
            have hmid : ∀ j, skipDigits s (p + 1) + 1 < j →
                j < skipDigits s (skipDigits s (p + 1) + 1) → boundaryAt s j = false := by
              intro j hj1 hj2
              obtain ⟨c1, hc1, hd1⟩ := skipDigits_digits s (skipDigits s (p + 1) + 1) j
                (by omega) hj2
              obtain ⟨c2, hc2, hd2⟩ := skipDigits_digits s (skipDigits s (p + 1) + 1) (j - 1)
                (by omega) (by omega)
              have hw1 : wordAt s j = true := wordAt_of_digit s j c1 hc1 hd1
              have hw2 : wordAt s (j - 1) = true := wordAt_of_digit s (j - 1) c2 hc2 hd2
              unfold boundaryAt
              rw [hw1, hw2]
              have : (j != 0) = true := by simpa using (by omega : j ≠ 0)
              rw [this]
              rfl
            rw [List.find?_append]
            rw [find?_descRange (boundaryAt s) _ _ _ (Nat.le_refl _) hq2ge hmid]
            by_cases hbq2 : boundaryAt s (skipDigits s (skipDigits s (p + 1) + 1)) = true
            · rw [if_pos hbq2, if_pos hbq2]
              rfl
            · rw [if_neg hbq2, if_neg hbq2]
              by_cases hlt2 : skipDigits s (p + 1) + 1 < skipDigits s (skipDigits s (p + 1) + 1)
              · obtain ⟨c3, hc3, hd3⟩ := skipDigits_digits s (skipDigits s (p + 1) + 1)
                  (skipDigits s (p + 1) + 1) (Nat.le_refl _) hlt2
                have hwq11 : wordAt s (skipDigits s (p + 1) + 1) = true :=
                  wordAt_of_digit s _ c3 hc3 hd3
                have hcond : skipDigits s (p + 1) + 1 < skipDigits s (skipDigits s (p + 1) + 1) ∧
                    boundaryAt s (skipDigits s (p + 1) + 1) = true :=
                  ⟨hlt2, by rw [hbq11, hwq11]⟩
                rw [if_pos hcond, if_pos hwq11]
                rfl
              · have heq2 : skipDigits s (skipDigits s (p + 1) + 1) = skipDigits s (p + 1) + 1 := by
                  omega
                have hb11 : boundaryAt s (skipDigits s (p + 1) + 1) = false := by
                  rw [← heq2]
                  simpa using hbq2
                have hwq11 : wordAt s (skipDigits s (p + 1) + 1) = false := by
                  rw [← hbq11]
                  exact hb11
                rw [if_neg (fun hcon => hlt2 hcon.1), if_neg (by simp [hwq11])]
                simp [List.find?, hbq1]
  
/-! ### Line normalization: parenthesized spans -/

theorem rpAux_none_nil : rpAux none [] = [] := rfl

theorem rpAux_some_nil (buf : List Char) : rpAux (some buf) [] = '(' :: buf.reverse := rfl

theorem rpAux_none_cons (c : Char) (rest : List Char) :
    rpAux none (c :: rest) =
      if c == '(' then rpAux (some []) rest else c :: rpAux none rest := rfl

theorem rpAux_some_cons (buf : List Char) (c : Char) (rest : List Char) :
    rpAux (some buf) (c :: rest) =
      if c == ')' then rpAux none rest else rpAux (some (c :: buf)) rest := rfl

theorem ne_close_of_not_mem (x : Char) (b : List Char) (hb : ')' ∉ x :: b) :
    (x == ')') = false := by
  have h : x ≠ ')' := fun h => hb (by rw [h]; exact List.mem_cons_self ..)
  simpa using h

theorem ne_open_of_not_mem (x : Char) (a : List Char) (ha : '(' ∉ x :: a) :
    (x == '(') = false := by
  have h : x ≠ '(' := fun h => ha (by rw [h]; exact List.mem_cons_self ..)
  simpa using h

theorem rpAux_buf_close : ∀ (b : List Char) (buf : List Char) (c : List Char),
    ')' ∉ b → rpAux (some buf) (b ++ ')' :: c) = rpAux none c := by
  intro b
  induction b with
  | nil =>
    intro buf c _
    rw [List.nil_append, rpAux_some_cons, if_pos (by decide)]
  | cons x b ih =>
    intro buf c hb
    rw [List.cons_append, rpAux_some_cons, if_neg (by simp [ne_close_of_not_mem x b hb])]
    exact ih (x :: buf) c (fun h => hb (List.mem_cons_of_mem x h))

theorem rpAux_buf_open : ∀ (b : List Char) (buf : List Char), ')' ∉ b →
    rpAux (some buf) b = '(' :: (buf.reverse ++ b) := by
  intro b
  induction b with
  | nil =>
    intro buf _
    rw [rpAux_some_nil]
    simp
  | cons x b ih =>
    intro buf hb
    rw [rpAux_some_cons, if_neg (by simp [ne_close_of_not_mem x b hb])]
    rw [ih (x :: buf) (fun h => hb (List.mem_cons_of_mem x h))]
    simp

/-- Every `'('` with a following `')'` is removed together with the enclosed
span, scanning left to right, non-greedily. -/
theorem removeParens_span (a b c : List Char) (ha : '(' ∉ a) (hb : ')' ∉ b) :
    removeParens (a ++ '(' :: b ++ ')' :: c) = a ++ removeParens c := by
  unfold removeParens
  induction a with
  | nil =>
    rw [List.nil_append, List.cons_append, rpAux_none_cons, if_pos (by decide)]
    exact rpAux_buf_close b [] c hb
  | cons x a ih =>
    simp only [List.cons_append]
    rw [rpAux_none_cons, if_neg (by simp [ne_open_of_not_mem x a ha])]
    rw [ih (fun h => ha (List.mem_cons_of_mem x h))]

/-- A line without `'('` is left unchanged. -/
theorem removeParens_no_open (s : List Char) (h : '(' ∉ s) : removeParens s = s := by
  unfold removeParens
  induction s with
  | nil => rfl
  | cons x s ih =>
    rw [rpAux_none_cons, if_neg (by simp [ne_open_of_not_mem x s h])]
    rw [ih (fun h' => h (List.mem_cons_of_mem x h'))]

/-- A `'('` with no later `')'` stays, along with everything after it. -/
theorem removeParens_unmatched (a b : List Char) (ha : '(' ∉ a) (hb : ')' ∉ b) :
    removeParens (a ++ '(' :: b) = a ++ '(' :: b := by
  unfold removeParens
  induction a with
  | nil =>
    rw [List.nil_append, rpAux_none_cons, if_pos (by decide)]
    rw [rpAux_buf_open b [] hb]
    rfl
  | cons x a ih =>
    simp only [List.cons_append]
    rw [rpAux_none_cons, if_neg (by simp [ne_open_of_not_mem x a ha])]
    rw [ih (fun h => ha (List.mem_cons_of_mem x h))]

/-! ### Line normalization: whitespace -/

theorem collapseAux_nil (flag : Bool) : collapseAux flag [] = [] := rfl

theorem collapseAux_cons (flag : Bool) (c : Char) (rest : List Char) :
    collapseAux flag (c :: rest) =
      if isPySpace c then
        (if flag then collapseAux true rest else ' ' :: collapseAux true rest)
      else c :: collapseAux false rest := rfl

theorem collapseAux_filter : ∀ (l : List Char) (flag : Bool),
    (collapseAux flag l).filter (fun c => !(isPySpace c)) =
      l.filter (fun c => !(isPySpace c)) := by
  intro l
  induction l with
  | nil => intro flag; rfl
  | cons c rest ih =>
    intro flag
    rw [collapseAux_cons]
    by_cases hc : isPySpace c = true
    · rw [if_pos hc]
      have hcf : (!(isPySpace c)) = false := by rw [hc]; rfl
      cases flag
      · simp only [Bool.false_eq_true, if_false]
        rw [List.filter_cons, List.filter_cons]
        have hsp : (!(isPySpace ' ')) = false := by decide
        rw [hsp, hcf]
        exact ih true
      · rw [if_pos rfl, List.filter_cons, hcf]
        exact ih true
    · rw [if_neg hc]
      rw [List.filter_cons, List.filter_cons]
      have hcf : (!(isPySpace c)) = true := by
        rw [(by simpa using hc : isPySpace c = false)]
        rfl
      rw [hcf, ih false]

theorem collapseAux_space_only : ∀ (l : List Char) (flag : Bool) (c : Char),
    c ∈ collapseAux flag l → isPySpace c = true → c = ' ' := by
  intro l
  induction l with
  | nil => intro flag c hc; rw [collapseAux_nil] at hc; simp at hc
  | cons x rest ih =>
    intro flag c hc hcs
    rw [collapseAux_cons] at hc
    by_cases hx : isPySpace x = true
    · rw [if_pos hx] at hc
      cases flag
      · simp only [Bool.false_eq_true, if_false] at hc
        rcases List.mem_cons.mp hc with h | h
        · exact h
        · exact ih true c h hcs
      · rw [if_pos rfl] at hc
        exact ih true c hc hcs
    · rw [if_neg hx] at hc
      rcases List.mem_cons.mp hc with h | h
      · subst h
        exact absurd hcs (by simpa using hx)
      · exact ih false c h hcs

theorem dropWhile_filter (l : List Char) :
    (l.dropWhile isPySpace).filter (fun c => !(isPySpace c)) =
      l.filter (fun c => !(isPySpace c)) := by
  induction l with
  | nil => rfl
  | cons c rest ih =>
    rw [List.dropWhile_cons]
    by_cases hc : isPySpace c = true
    · rw [if_pos hc, List.filter_cons]
      have hcf : (!(isPySpace c)) = false := by rw [hc]; rfl
      rw [hcf]
      exact ih
    · rw [if_neg hc]

theorem stripPy_filter (l : List Char) :
    (stripPy l).filter (fun c => !(isPySpace c)) =
      l.filter (fun c => !(isPySpace c)) := by
  unfold stripPy
  rw [List.filter_reverse, dropWhile_filter, List.filter_reverse, dropWhile_filter,
    List.reverse_reverse]

theorem stripPy_mem (l : List Char) (c : Char) (h : c ∈ stripPy l) : c ∈ l := by
  unfold stripPy at h
  rw [List.mem_reverse] at h
  have h1 := (List.dropWhile_sublist ..).mem h
  rw [List.mem_reverse] at h1
  exact (List.dropWhile_sublist ..).mem h1

/-- Steps (2) and (3) of line normalization touch only whitespace: the
non-whitespace characters of the cleaned line are exactly those left after
parenthesized-span removal, in order. -/
theorem cleanLine_filter (l : List Char) :
    (cleanLine l).filter (fun c => !(isPySpace c)) =
      (removeParens l).filter (fun c => !(isPySpace c)) := by
  unfold cleanLine collapseWs
  rw [stripPy_filter, collapseAux_filter]

/-- All whitespace surviving in a cleaned line is a plain space. -/
theorem cleanLine_space_only (l : List Char) (c : Char) (hc : c ∈ cleanLine l)
    (hcs : isPySpace c = true) : c = ' ' := by
  unfold cleanLine collapseWs at hc
  exact collapseAux_space_only (removeParens l) false c (stripPy_mem _ c hc) hcs

theorem numSearch_eq_spec (s : List Char) (start : Nat) :
    numSearch s start = numSpecSearch s start := by
  unfold numSearch numSpecSearch
  congr 1
  funext p
  exact tryNum_eq_spec s p


/-! ### The claims -/

/-- C1: for every input string, including the empty string, the result of
`extract_health_values` contains exactly one entry per registry metric, no
more, no fewer; every metric with no resolved value is mapped to the explicit
absent marker `none`, never omitted; and no value is ever the empty string. -/
theorem C1_result_shape (text : String) :
    ((extract_health_values text).map Prod.fst).Perm registryNames ∧
    (∀ k, k ∈ registryNames → lookupKey k (scanLines (splitlines text.toList)) = none →
      lookupKey k (extract_health_values text) = some none) ∧
    (∀ e ∈ extract_health_values text, e.2 ≠ some "") := by
  refine ⟨?_, ?_, ?_⟩
  · exact assemble_keys_perm _ (scan_keys_sub _) (scan_keys_nodup _)
  · intro k hk hnone
    unfold extract_health_values
    rw [assemble_lookup _ k hk, hnone]
    rfl
  · intro e he
    unfold extract_health_values assemble at he
    rcases List.mem_append.mp he with h | h
    · obtain ⟨e', he', heq⟩ := List.mem_map.mp h
      have hne : e'.2 ≠ [] :=
        scan_entries (fun _ v => v ≠ [])
          (fun kp v clean _ hv => (lineValue_props kp.1 kp.2 clean v hv).1)
          (splitlines text.toList) e' he'
      have he2 : e.2 = some (String.mk e'.2) := by rw [← heq]
      rw [he2]
      intro hcontra
      apply hne
      have hmk : String.mk e'.2 = "" := Option.some.inj hcontra
      have := congrArg String.data hmk
      simpa using this
    · obtain ⟨kp, _, heq⟩ := List.mem_map.mp h
      have he2 : e.2 = none := by rw [← heq]
      rw [he2]
      simp

theorem C1_result_shape_witness :
    ((extract_health_values "").map Prod.fst).Perm registryNames ∧
    lookupKey "HbA1c" (extract_health_values "") = some none ∧
    ("HbA1c", (some "5.8" : Option String)).2 ≠ some "" :=
  ⟨(C1_result_shape "").1,
   (C1_result_shape "").2.1 "HbA1c" (by decide) (by decide),
   (C1_result_shape "HbA1c 5.8%").2.2 ("HbA1c", some "5.8") (by decide)⟩

/-- C2: once a metric resolves on a line, no later line overwrites it: if the
metric is unresolved after `pre` and resolves to `v` on `line`, then the final
dictionary holds `v` whatever `post` contains, and `v` is exactly what
processing `line` alone yields (first-match-wins, top to bottom). -/
theorem C2_first_match_wins (pre post : List (List Char)) (line : List Char)
    (k : String) (v : List Char)
    (h1 : lookupKey k (scanLines pre) = none)
    (h2 : lookupKey k (scanLines (pre ++ [line])) = some v) :
    lookupKey k (scanLines (pre ++ line :: post)) = some v ∧
    lookupKey k (scanLines [line]) = some v ∧
    lookupKey k (assemble (scanLines (pre ++ line :: post))) = some (some (String.mk v)) := by
  have hstep : scanLines (pre ++ [line]) = step (scanLines pre) line := by
    rw [scanLines_append, List.foldl_cons, List.foldl_nil]
  have hlv : lineValueFor k line = some v := by
    rw [hstep, step_lookup, h1] at h2
    simpa using h2
  have hsingle : lookupKey k (scanLines [line]) = some v := by
    have h0 : scanLines [line] = step [] line := by
      unfold scanLines
      rw [List.foldl_cons, List.foldl_nil]
    rw [h0, step_lookup, lookupKey_nil, Option.none_or]
    exact hlv
  have hsplit : pre ++ line :: post = (pre ++ [line]) ++ post := by simp
  have hpersist : lookupKey k (scanLines (pre ++ line :: post)) = some v := by
    rw [hsplit]
    exact scan_persist k v (pre ++ [line]) post h2
  have hk_reg : k ∈ registryNames := by
    have hks : (lookupKey k (scanLines (pre ++ [line]))).isSome = true := by
      rw [h2]
      rfl
    rw [lookup_isSome_eq_any] at hks
    exact scan_keys_sub (pre ++ [line]) k ((mem_keys_iff_any k _).mpr hks)
  refine ⟨hpersist, hsingle, ?_⟩
  rw [assemble_lookup _ k hk_reg, hpersist]
  rfl

theorem C2_first_match_wins_witness :
    lookupKey "HbA1c" (scanLines ([] ++ ("HbA1c 5.8%".toList) :: ["HbA1c 6.9%".toList])) =
      some ("5.8".toList) ∧
    lookupKey "HbA1c" (scanLines ["HbA1c 5.8%".toList]) = some ("5.8".toList) ∧
    lookupKey "HbA1c"
        (assemble (scanLines ([] ++ ("HbA1c 5.8%".toList) :: ["HbA1c 6.9%".toList]))) =
      some (some (String.mk ("5.8".toList))) :=
  C2_first_match_wins [] ["HbA1c 6.9%".toList] ("HbA1c 5.8%".toList) "HbA1c"
    ("5.8".toList) (by decide) (by decide)

/-- C3 counterexample: on the input `"Cholesterol 7.2x"` the label ends at
offset 11 and the code extracts `"7."` for Cholesterol, while the first
word-boundary-delimited token after the label of the claimed shape
(digits, optional separator plus digits) is `"7"`: the extracted value is not
that token. -/
theorem C3_counterexample :
    lookupKey "Cholesterol" (extract_health_values "Cholesterol 7.2x") =
      some (some "7.") ∧
    (patterns.find? (fun kp => kp.1 == "Cholesterol")).map
      (fun kp => synSearch (cleanLine ("Cholesterol 7.2x".toList)) kp.2) =
      some (some 11) ∧
    claimFirstToken (cleanLine ("Cholesterol 7.2x".toList)) 11 = some ("7".toList) ∧
    ("7." : String) ≠ "7" := by decide

/-- C3 amended: the decimal extraction is the leftmost match of
`\b[0-9]+[.,]?[0-9]*\b` from the label end, equivalently described as: take
the maximal digit run; a following separator plus digit run is included when
it ends at a word boundary, is truncated just after the separator when a word
character follows the separator, and is dropped otherwise; `','` is
normalized to `'.'` (`"7,2" ↦ "7.2"`, `"7.2"` stays); a line with no match
contributes no value. -/
theorem C3_amended_num_extraction :
    (∀ (s : List Char) (start : Nat), numSearch s start = numSpecSearch s start) ∧
    lookupKey "HbA1c" (extract_health_values "HbA1c 7,2") = some (some "7.2") ∧
    lookupKey "HbA1c" (extract_health_values "HbA1c 7.2") = some (some "7.2") ∧
    lookupKey "HbA1c" (extract_health_values "HbA1c pending") = some none :=
  ⟨numSearch_eq_spec, by decide, by decide, by decide⟩

/-- C4 counterexample: on `"Cholesterol 7.2x"` the resolved Decimal value is
`"7."`, which is not of the claimed shape digits-optionally-separator-digits
(the separator is trailing). -/
theorem C4_counterexample :
    lookupKey "Cholesterol" (extract_health_values "Cholesterol 7.2x") =
      some (some "7.") ∧
    claimDecShape ("7.".toList) = false := by decide

/-- C4 amended: every resolved value matches its metric's shape, where the
Ratio metric (Blood Pressure) always holds 2-3 digits, `'/'`, 2-3 digits, and
a Decimal metric holds digits, an optional `'.'` separator, and zero or more
further digits (the separator may be trailing). -/
theorem C4_amended_value_shapes (text : String) (k : String) (v : String)
    (h : (k, some v) ∈ extract_health_values text) :
    (k = "Blood Pressure" → ratioShape v.toList = true) ∧
    (k ≠ "Blood Pressure" → amendedDecShape v.toList = true) := by
  unfold extract_health_values assemble at h
  rcases List.mem_append.mp h with h' | h'
  · obtain ⟨e', he', heq⟩ := List.mem_map.mp h'
    have hshape := scan_entries
      (fun key w => (key = "Blood Pressure" → ratioShape w = true) ∧
        (key ≠ "Blood Pressure" → amendedDecShape w = true))
      (fun kp w clean _ hv => by
        have hp := (lineValue_props kp.1 kp.2 clean w hv).2
        by_cases hkey : (kp.1 == "Blood Pressure") = true
        · rw [if_pos hkey] at hp
          exact ⟨fun _ => hp, fun hne => absurd (by simpa using hkey) hne⟩
        · rw [if_neg hkey] at hp
          exact ⟨fun heq => absurd heq (by simpa using hkey), fun _ => hp⟩)
      (splitlines text.toList) e' he'
    have hk : e'.1 = k := congrArg Prod.fst heq
    have hv : some (String.mk e'.2) = some v := congrArg Prod.snd heq
    have hv2 : v.toList = e'.2 := by
      have := Option.some.inj hv
      rw [← this]
      rfl
    rw [← hk, hv2]
    exact hshape
  · obtain ⟨kp, _, heq⟩ := List.mem_map.mp h'
    have : (none : Option String) = some v := congrArg Prod.snd heq
    exact absurd this (by simp)

theorem C4_amended_value_shapes_witness :
    (("Blood Pressure" : String) = "Blood Pressure" →
      ratioShape ("120/80".toList) = true) ∧
    (("Blood Pressure" : String) ≠ "Blood Pressure" →
      amendedDecShape ("120/80".toList) = true) :=
  C4_amended_value_shapes "Blood Pressure 120/80 mmHg" "Blood Pressure" "120/80"
    (by decide)

/-- C5: a label match without a value on the same line leaves the metric
unresolved (so later lines are still attempted); in particular Scenario D:
`"Albumin: normal\nAlbumin 4.1 g/dL"` resolves Albumin from the second
line to `"4.1"`. -/
theorem C5_no_value_no_resolution :
    (∀ (res : List (String × List Char)) (line : List Char) (k : String),
      lookupKey k res = none → lineValueFor k line = none →
      lookupKey k (step res line) = none) ∧
    lookupKey "Albumin" (extract_health_values "Albumin: normal\nAlbumin 4.1 g/dL") =
      some (some "4.1") := by
  refine ⟨?_, by decide⟩
  intro res line k h1 h2
  rw [step_lookup, h1, h2]
  rfl

theorem C5_no_value_no_resolution_witness :
    lookupKey "Albumin" (step [] ("Albumin: normal".toList)) = none ∧
    lookupKey "Albumin" (extract_health_values "Albumin: normal\nAlbumin 4.1 g/dL") =
      some (some "4.1") :=
  ⟨C5_no_value_no_resolution.1 [] ("Albumin: normal".toList) "Albumin" rfl (by decide),
   C5_no_value_no_resolution.2⟩

/-- C6: line normalization removes every parenthesized span non-greedily
(each `'('` with everything up to the first following `')'`), leaves
unmatched parentheses in place, touches only whitespace otherwise (collapsing
runs and trimming, every surviving whitespace being one space); the spec's
example line normalizes as claimed and extracts HbA1c = `"5.8"`. -/
theorem C6_line_normalization :
    (∀ a b c : List Char, '(' ∉ a → ')' ∉ b →
      removeParens (a ++ '(' :: b ++ ')' :: c) = a ++ removeParens c) ∧
    (∀ s : List Char, '(' ∉ s → removeParens s = s) ∧
    (∀ a b : List Char, '(' ∉ a → ')' ∉ b →
      removeParens (a ++ '(' :: b) = a ++ '(' :: b) ∧
    (∀ l : List Char, (cleanLine l).filter (fun c => !(isPySpace c)) =
      (removeParens l).filter (fun c => !(isPySpace c))) ∧
    (∀ (l : List Char) (c : Char), c ∈ cleanLine l → isPySpace c = true → c = ' ') ∧
    cleanLine ("HbA1c (ref 4-6%) 5.8%".toList) = "HbA1c 5.8%".toList ∧
    cleanLine ("  HbA1c \t 5.8 ".toList) = "HbA1c 5.8".toList ∧
    lookupKey "HbA1c" (extract_health_values "HbA1c (ref 4-6%) 5.8%") =
      some (some "5.8") :=
  ⟨removeParens_span, removeParens_no_open, removeParens_unmatched, cleanLine_filter,
   cleanLine_space_only, by decide, by decide, by decide⟩

theorem C6_line_normalization_witness :
    removeParens ("HbA1c ".toList ++ '(' :: "ref 4-6%".toList ++ ')' :: " 5.8%".toList) =
      "HbA1c ".toList ++ removeParens (" 5.8%".toList) ∧
    removeParens ("HbA1c 5.8%".toList) = "HbA1c 5.8%".toList ∧
    removeParens ("a ".toList ++ '(' :: "b c".toList) = "a ".toList ++ '(' :: "b c".toList :=
  ⟨C6_line_normalization.1 ("HbA1c ".toList) ("ref 4-6%".toList) (" 5.8%".toList)
      (by decide) (by decide),
   C6_line_normalization.2.1 ("HbA1c 5.8%".toList) (by decide),
   C6_line_normalization.2.2.1 ("a ".toList) ("b c".toList) (by decide) (by decide)⟩

/-- C7: synonym matching is case-insensitive and whole-word bounded: a line
`"LDL 130"` resolves LDL but neither CK nor LDH (the synonym `"LD"` does not
match inside `"LDL"`), a line `"LD 220"` resolves LDH to `"220"` without
resolving LDL, and a lowercase `"ldl 130"` still resolves LDL. -/
theorem C7_whole_word_matching :
    lookupKey "LDL" (extract_health_values "LDL 130") = some (some "130") ∧
    lookupKey "CK" (extract_health_values "LDL 130") = some none ∧
    lookupKey "LDH" (extract_health_values "LDL 130") = some none ∧
    lookupKey "LDH" (extract_health_values "LD 220") = some (some "220") ∧
    lookupKey "LDL" (extract_health_values "LD 220") = some none ∧
    lookupKey "LDL" (extract_health_values "ldl 130") = some (some "130") := by
  decide

/-- C8: the code has no processing cap and no error outcome at all: for every
input, `extract_health_values` returns the complete 12-entry mapping (there
is no `InputTooLarge` or any other failure path in the function). -/
theorem C8_no_error_outcome (text : String) :
    (extract_health_values text).length = 12 ∧
    ((extract_health_values text).map Prod.fst).Perm registryNames := by
  have hperm : ((extract_health_values text).map Prod.fst).Perm registryNames :=
    assemble_keys_perm _ (scan_keys_sub _) (scan_keys_nodup _)
  refine ⟨?_, hperm⟩
  have hlen := hperm.length_eq
  rw [List.length_map] at hlen
  rw [hlen]
  rfl

/-- C9 counterexample: on `"HbA1c 5.8\nPlasma Glucose 95"` the final mapping
enumerates HbA1c before Plasma Glucose (resolution order), not in registry
order, refuting the claimed registry-order enumeration. -/
theorem C9_counterexample :
    (extract_health_values "HbA1c 5.8\nPlasma Glucose 95").map Prod.fst ≠
      registryNames ∧
    (extract_health_values "HbA1c 5.8\nPlasma Glucose 95").map Prod.fst =
      ["HbA1c", "Plasma Glucose", "HDL", "LDL", "Triglycerides", "Albumin",
       "Cholesterol", "BMI", "Blood Pressure", "TSH", "LDH", "CK"] := by decide

/-- C9 amended: the final mapping has exactly one entry per registry metric,
enumerated with the resolved metrics first in resolution order (the scan
only ever appends) followed by the unresolved metrics in registry order with
the absent marker. -/
theorem C9_amended_enumeration_order :
    (∀ (res : List (String × List Char)) (line : List Char),
      ∃ t, step res line = res ++ t) ∧
    (∀ text : String,
      ((extract_health_values text).map Prod.fst).Perm registryNames) ∧
    (∀ text : String, extract_health_values text =
      (scanLines (splitlines text.toList)).map (fun e => (e.1, some (String.mk e.2))) ++
        (patterns.filter (fun kp =>
          !((scanLines (splitlines text.toList)).any (fun e => e.1 == kp.1)))).map
          (fun kp => (kp.1, (none : Option String)))) :=
  ⟨fun res line => innerFold_eq_append (cleanLine line) patterns res,
   fun _ => assemble_keys_perm _ (scan_keys_sub _) (scan_keys_nodup _),
   fun _ => rfl⟩

/-- C10: the synonyms spelled with a trailing period match only when the
period is immediately followed by a word character, since `\b` cannot hold
between `'.'` and a space or end of line: `"B.P. 120/80"` does not resolve
Blood Pressure, while `"B.P.120/80"` does; likewise for `"T.S.H."` and
`"B.M.I."`. -/
theorem C10_trailing_period_synonyms :
    lineValueFor "Blood Pressure" ("B.P. 120/80".toList) = none ∧
    lineValueFor "Blood Pressure" ("B.P.120/80".toList) = some ("120/80".toList) ∧
    lookupKey "Blood Pressure" (extract_health_values "B.P. 120/80") = some none ∧
    lookupKey "Blood Pressure" (extract_health_values "B.P.120/80") =
      some (some "120/80") ∧
    lookupKey "TSH" (extract_health_values "T.S.H. 2.5") = some none ∧
    lookupKey "BMI" (extract_health_values "B.M.I. 25") = some none ∧
    lookupKey "BMI" (extract_health_values "B.M.I.25") = some (some "25") := by
  decide

end OCR
